import Mathlib

/-!
Verification of the time-series gap-filling transformation (`fillGaps`,
`public/app/core/utils/fillGaps.ts`) of the repository.

The implementation file itself is not part of the provided sources; only its
test suite (`public/app/core/utils/fillGaps.test.ts`) is.  The definitions
below are therefore modelled from the specification's description of the
Gap Filler (spec sections 3 and 4.1) and checked against the observable
behaviour recorded in the test suite.
-/

namespace Grafana

/-- Modelled from the spec: the semantic kind of a column ("time, numeric,
text, …"), mirroring `FieldType` of `@grafana/data`. -/
inductive FieldType where
  | time
  | number
  | string
  | boolean
  | other
deriving DecidableEq

/-- Modelled from the spec: a cell value of a column; numeric/time values are
rationals (the spec computes with real-number division), text values are
strings.  A cell may be explicitly absent (`Option.none` below). -/
inductive Value where
  | num (q : ℚ)
  | str (s : String)
deriving DecidableEq

/-- Modelled from the spec: a Column of a Table (a `Field` of a data frame):
a name, a semantic kind, an optional sampling interval attached by the
upstream layer (`config.interval`), and an ordered sequence of values, each
possibly explicitly null. -/
structure Field where
  name : String
  ftype : FieldType
  interval : Option ℚ
  values : List (Option Value)
deriving DecidableEq

/-- Modelled from the spec: a Table (a data frame): an ordered sequence of
Columns, plus the frame identifier carried by the surrounding structure. -/
structure DataFrame where
  refId : String
  fields : List Field
deriving DecidableEq

/-- Modelled from the spec: the key column is the (first) column carrying a
sampling interval; `none` when no column carries one. -/
def findKey : List Field → Option Field
  | [] => none
  | f :: rest => if f.interval.isSome then some f else findKey rest

/-- Modelled from the spec: read the key column's values as numbers.  The
spec requires the key column to be value-comparable and orderable; a null or
textual cell in the key column makes it unusable, which (by the spec's
failure semantics) degrades to the no-op. -/
def extractNums : List (Option Value) → Option (List ℚ)
  | [] => some []
  | some (Value.num q) :: rest => (extractNums rest).map (fun l => q :: l)
  | _ => none

/-- Modelled from the spec: the key column qualifies only when consecutive
values are nondecreasing; any `key i > key (i+1)` anywhere triggers the
no-op over the whole table. -/
def isNondecreasing : List ℚ → Bool
  | a :: b :: rest => decide (a ≤ b) && isNondecreasing (b :: rest)
  | _ => true

/-- Modelled from the spec: the number of whole steps between two consecutive
key values, `round ((key (i+1) - key i) / interval)`, rounding to the nearest
integer rather than demanding exact divisibility. -/
def stepCount (q a b : ℚ) : ℤ := round ((b - a) / q)

/-- Modelled from the spec: for each consecutive pair of key values, the
number of synthetic rows inserted between them: `steps - 1` when
`steps > 1`, otherwise zero. -/
def gapCounts (q : ℚ) : List ℚ → List ℕ
  | a :: b :: rest => (stepCount q a b - 1).toNat :: gapCounts q (b :: rest)
  | _ => []

/-- Modelled from the spec: the synthetic key values inserted after a key
value `a`: `a + interval, a + 2*interval, …, a + k*interval`, derived by
repeated addition of the interval from the left endpoint of the pair. -/
def synthKeys (q a : ℚ) (k : ℕ) : List ℚ :=
  (List.range k).map (fun j : ℕ => a + ((j : ℚ) + 1) * q)

/-- Modelled from the spec: the filled key column: each original key value,
followed by the synthetic key values of the gap to its successor. -/
def expandKeys (q : ℚ) : List ℚ → List ℚ
  | a :: b :: rest =>
      a :: (synthKeys q a (stepCount q a b - 1).toNat ++ expandKeys q (b :: rest))
  | l => l

/-- Modelled from the spec: the filled value sequence of a non-key column:
each original value, followed by one explicit null per synthetic row of the
gap to the next original row. -/
def expandData : List ℕ → List (Option Value) → List (Option Value)
  | c :: cs, v :: vs => v :: (List.replicate c none ++ expandData cs vs)
  | _, vs => vs

/-- Modelled from the spec: rebuild the column list: the key column (the
first column carrying an interval) receives the filled key values, every
other column receives its values padded with explicit nulls. -/
def rebuildFields (counts : List ℕ) (newKeys : List (Option Value)) :
    List Field → List Field
  | [] => []
  | g :: rest =>
      if g.interval.isSome then
        { g with values := newKeys } ::
          rest.map (fun h => { h with values := expandData counts h.values })
      else
        { g with values := expandData counts g.values } ::
          rebuildFields counts newKeys rest

/-- Modelled from the spec: `fillGaps(table) -> table`
(`public/app/core/utils/fillGaps.ts`, absent from the provided sources).
Bails out to the unchanged input when: no column carries a sampling
interval; the interval is not strictly positive; the key column is not of a
numeric or time kind; its values are not all numeric; the row count is below
two; or the key values are not nondecreasing.  Otherwise inserts, between
each consecutive pair of key values, `steps - 1` synthetic rows
(`steps = round ((key (i+1) - key i) / interval)`) carrying the computed
synthetic key values and explicit nulls in every other column. -/
def fillGaps (frame : DataFrame) : DataFrame :=
  match findKey frame.fields with
  | none => frame
  | some f =>
    match f.interval with
    | none => frame
    | some q =>
      if q ≤ 0 then frame
      else if f.ftype = FieldType.time ∨ f.ftype = FieldType.number then
        match extractNums f.values with
        | none => frame
        | some keys =>
          if keys.length < 2 then frame
          else if isNondecreasing keys then
            { frame with
              fields := rebuildFields (gapCounts q keys)
                ((expandKeys q keys).map (fun k => some (Value.num k)))
                frame.fields }
          else frame
      else frame

/-- Relation between consecutive filled key values: ordered, and close enough
that no further synthetic row is due between them. -/
def tight (q a b : ℚ) : Prop := a ≤ b ∧ stepCount q a b ≤ 1

/-- Key column of the first test scenario: time kind, interval 1,
values 1, 3, 10 (fillGaps.test.ts, "should fill nulls as expected for time
fields"). -/
def timeKeyField : Field :=
  { name := "Time", ftype := FieldType.time, interval := some 1,
    values := [some (.num 1), some (.num 3), some (.num 10)] }

/-- Input frame of the first test scenario. -/
def dfTimeKey : DataFrame :=
  { refId := "A"
    fields :=
      [ timeKeyField,
        { name := "One", ftype := FieldType.number, interval := none,
          values := [some (.num 4), some (.num 6), some (.num 8)] },
        { name := "Two", ftype := FieldType.string, interval := none,
          values := [some (.str "a"), some (.str "b"), some (.str "c")] } ] }

/-- Expected output of the first test scenario: key column 1..10, the other
columns null-padded at the synthetic rows. -/
def dfTimeKeyFilled : DataFrame :=
  { refId := "A"
    fields :=
      [ { name := "Time", ftype := FieldType.time, interval := some 1,
          values := [some (.num 1), some (.num 2), some (.num 3), some (.num 4),
            some (.num 5), some (.num 6), some (.num 7), some (.num 8),
            some (.num 9), some (.num 10)] },
        { name := "One", ftype := FieldType.number, interval := none,
          values := [some (.num 4), none, some (.num 6), none, none, none,
            none, none, none, some (.num 8)] },
        { name := "Two", ftype := FieldType.string, interval := none,
          values := [some (.str "a"), none, some (.str "b"), none, none, none,
            none, none, none, some (.str "c")] } ] }

/-- Input frame of the timestamp-alignment test scenario: interval 2, key
values 1, 4, 8 (fillGaps.test.ts, "should handle timestamp alignment
issues"). -/
def dfAligned : DataFrame :=
  { refId := "A"
    fields :=
      [ { name := "Time", ftype := FieldType.time, interval := some 2,
          values := [some (.num 1), some (.num 4), some (.num 8)] },
        { name := "Value", ftype := FieldType.number, interval := none,
          values := [some (.num 0), some (.num 1), some (.num 2)] } ] }

/-- Expected output of the timestamp-alignment scenario: key 1, 3, 4, 6, 8. -/
def dfAlignedFilled : DataFrame :=
  { refId := "A"
    fields :=
      [ { name := "Time", ftype := FieldType.time, interval := some 2,
          values := [some (.num 1), some (.num 3), some (.num 4),
            some (.num 6), some (.num 8)] },
        { name := "Value", ftype := FieldType.number, interval := none,
          values := [some (.num 0), none, some (.num 1), none, some (.num 2)] } ] }

/-- Input frame with the interval on a number column that is not the time
column (fillGaps.test.ts, "should fill nulls as expected for number
fields"). -/
def dfNumberKey : DataFrame :=
  { refId := "A"
    fields :=
      [ { name := "Time", ftype := FieldType.time, interval := none,
          values := [some (.num 1), some (.num 3), some (.num 10)] },
        { name := "One", ftype := FieldType.number, interval := some 2,
          values := [some (.num 2), some (.num 6), some (.num 10)] },
        { name := "Two", ftype := FieldType.string, interval := none,
          values := [some (.str "a"), some (.str "b"), some (.str "c")] } ] }

/-- Expected output of the number-key scenario: the number column is the key
and receives the synthetic values; the time column receives nulls. -/
def dfNumberKeyFilled : DataFrame :=
  { refId := "A"
    fields :=
      [ { name := "Time", ftype := FieldType.time, interval := none,
          values := [some (.num 1), none, some (.num 3), none, some (.num 10)] },
        { name := "One", ftype := FieldType.number, interval := some 2,
          values := [some (.num 2), some (.num 4), some (.num 6),
            some (.num 8), some (.num 10)] },
        { name := "Two", ftype := FieldType.string, interval := none,
          values := [some (.str "a"), none, some (.str "b"), none, some (.str "c")] } ] }

/-- Key column of kind text carrying an interval (fillGaps.test.ts, "should
not modify frame if interval is on string field"). -/
def stringKindField : Field :=
  { name := "Time", ftype := FieldType.string, interval := some 1,
    values := [some (.str "a"), some (.str "b")] }

/-- Frame whose interval-bearing column is of text kind. -/
def dfStringKind : DataFrame :=
  { refId := "A"
    fields :=
      [ stringKindField,
        { name := "Value", ftype := FieldType.number, interval := none,
          values := [some (.num 6), some (.num 8)] } ] }

/-- Key column with out-of-order values (fillGaps.test.ts, "should not
insert nulls for out of order timestamps"). -/
def outOfOrderField : Field :=
  { name := "Time", ftype := FieldType.time, interval := some 1,
    values := [some (.num 3), some (.num 1)] }

/-- Frame whose key column is out of order. -/
def dfOutOfOrder : DataFrame :=
  { refId := "A"
    fields :=
      [ outOfOrderField,
        { name := "Value", ftype := FieldType.number, interval := none,
          values := [some (.num 6), some (.num 8)] } ] }

/-- Key column with strictly increasing, evenly spaced values matching its
interval. -/
def evenlySpacedField : Field :=
  { name := "Time", ftype := FieldType.time, interval := some 1,
    values := [some (.num 0), some (.num 1), some (.num 2)] }

/-- Frame with an evenly spaced key column. -/
def dfEvenlySpaced : DataFrame :=
  { refId := "A"
    fields :=
      [ evenlySpacedField,
        { name := "Value", ftype := FieldType.number, interval := none,
          values := [some (.num 6), some (.num 7), some (.num 8)] } ] }

theorem extractNums_eq_map : ∀ {vs : List (Option Value)} {ks : List ℚ},
    extractNums vs = some ks → vs = ks.map (fun k => some (Value.num k)) := by
  intro vs
  induction vs with
  | nil => intro ks h; simp [extractNums] at h; simp [← h]
  | cons v rest ih =>
    intro ks h
    match v with
    | none => simp [extractNums] at h
    | some (Value.str s) => simp [extractNums] at h
    | some (Value.num x) =>
      simp only [extractNums, Option.map_eq_some'] at h
      obtain ⟨l, hl, rfl⟩ := h
      simp [ih hl]

theorem extractNums_map : ∀ ks : List ℚ,
    extractNums (ks.map (fun k => some (Value.num k))) = some ks := by
  intro ks
  induction ks with
  | nil => rfl
  | cons a rest ih => simp [extractNums, ih]

theorem extractNums_length {vs : List (Option Value)} {ks : List ℚ}
    (h : extractNums vs = some ks) : vs.length = ks.length := by
  rw [extractNums_eq_map h]; simp

theorem isNondecreasing_iff_chain : ∀ ks : List ℚ,
    isNondecreasing ks = true ↔ List.Chain' (· ≤ ·) ks := by
  intro ks
  induction ks with
  | nil => simp [isNondecreasing]
  | cons a rest ih =>
    cases rest with
    | nil => simp [isNondecreasing]
    | cons b rs =>
      rw [List.chain'_cons, ← ih]
      simp [isNondecreasing]

theorem findKey_interval : ∀ {fs : List Field} {f : Field},
    findKey fs = some f → f.interval.isSome := by
  intro fs
  induction fs with
  | nil => intro f h; simp [findKey] at h
  | cons g rest ih =>
    intro f h
    by_cases hg : g.interval.isSome
    · simp [findKey, hg] at h; rwa [← h]
    · simp [findKey, hg] at h; exact ih h

theorem findKey_mem : ∀ {fs : List Field} {f : Field},
    findKey fs = some f → f ∈ fs := by
  intro fs
  induction fs with
  | nil => intro f h; simp [findKey] at h
  | cons g rest ih =>
    intro f h
    by_cases hg : g.interval.isSome
    · simp [findKey, hg] at h; simp [h]
    · simp [findKey, hg] at h; exact List.mem_cons_of_mem _ (ih h)

theorem expandData_of_zero : ∀ {counts : List ℕ}, (∀ c ∈ counts, c = 0) →
    ∀ vs : List (Option Value), expandData counts vs = vs := by
  intro counts
  induction counts with
  | nil => intro _ vs; cases vs <;> rfl
  | cons c cs ih =>
    intro h vs
    cases vs with
    | nil => rfl
    | cons v vs' =>
      have hc : c = 0 := h c (by simp)
      have hcs : ∀ x ∈ cs, x = 0 := fun x hx => h x (by simp [hx])
      simp [expandData, hc, ih hcs]

theorem expandKeys_of_nogap {q : ℚ} : ∀ {ks : List ℚ},
    List.Chain' (fun a b => stepCount q a b ≤ 1) ks → expandKeys q ks = ks := by
  intro ks
  induction ks with
  | nil => intro _; rfl
  | cons a rest ih =>
    intro h
    cases rest with
    | nil => rfl
    | cons b rs =>
      rw [List.chain'_cons] at h
      have h1 : (stepCount q a b - 1).toNat = 0 := by omega
      simp [expandKeys, synthKeys, h1, ih h.2]

theorem gapCounts_of_nogap {q : ℚ} : ∀ {ks : List ℚ},
    List.Chain' (fun a b => stepCount q a b ≤ 1) ks →
    ∀ c ∈ gapCounts q ks, c = 0 := by
  intro ks
  induction ks with
  | nil => intro _ c hc; simp [gapCounts] at hc
  | cons a rest ih =>
    intro h c hc
    cases rest with
    | nil => simp [gapCounts] at hc
    | cons b rs =>
      rw [List.chain'_cons] at h
      simp only [gapCounts, List.mem_cons] at hc
      rcases hc with hc | hc
      · omega
      · exact ih h.2 c hc

theorem gapCounts_length {q : ℚ} : ∀ ks : List ℚ,
    (gapCounts q ks).length = ks.length - 1 := by
  intro ks
  induction ks with
  | nil => rfl
  | cons a rest ih =>
    cases rest with
    | nil => rfl
    | cons b rs =>
      simp only [gapCounts, List.length_cons]
      rw [ih]
      simp

theorem synthKeys_length (q a : ℚ) (k : ℕ) : (synthKeys q a k).length = k := by
  rw [synthKeys, List.length_map, List.length_range]

theorem expandKeys_length {q : ℚ} : ∀ ks : List ℚ,
    (expandKeys q ks).length = ks.length + (gapCounts q ks).sum := by
  intro ks
  induction ks with
  | nil => rfl
  | cons a rest ih =>
    cases rest with
    | nil => rfl
    | cons b rs =>
      simp only [expandKeys, gapCounts, List.length_cons, List.length_append,
        List.sum_cons, synthKeys_length, ih]
      ring

theorem expandData_length : ∀ (counts : List ℕ) (vs : List (Option Value)),
    counts.length < vs.length →
    (expandData counts vs).length = vs.length + counts.sum := by
  intro counts
  induction counts with
  | nil => intro vs _; cases vs <;> simp [expandData]
  | cons c cs ih =>
    intro vs h
    cases vs with
    | nil => simp at h
    | cons v vs' =>
      simp only [List.length_cons, Nat.add_lt_add_iff_right] at h
      simp only [expandData, List.length_cons, List.length_append,
        List.length_replicate, List.sum_cons, ih vs' h]
      ring

theorem sublist_expandData : ∀ (counts : List ℕ) (vs : List (Option Value)),
    vs.Sublist (expandData counts vs) := by
  intro counts
  induction counts with
  | nil => intro vs; cases vs <;> simp [expandData]
  | cons c cs ih =>
    intro vs
    cases vs with
    | nil => simp [expandData]
    | cons v vs' =>
      simp only [expandData]
      exact List.Sublist.cons₂ v ((ih vs').trans (List.sublist_append_right _ _))

theorem sublist_expandKeys {q : ℚ} : ∀ ks : List ℚ, ks.Sublist (expandKeys q ks) := by
  intro ks
  induction ks with
  | nil => simp [expandKeys]
  | cons a rest ih =>
    cases rest with
    | nil => simp [expandKeys]
    | cons b rs =>
      simp only [expandKeys]
      exact List.Sublist.cons₂ a (ih.trans (List.sublist_append_right _ _))

theorem field_expand_self {counts : List ℕ} (hz : ∀ c ∈ counts, c = 0) :
    ∀ g : Field, { g with values := expandData counts g.values } = g := by
  intro g; rw [expandData_of_zero hz]

theorem findKey_rebuild {counts : List ℕ} {nk : List (Option Value)} :
    ∀ {fs : List Field} {f : Field}, findKey fs = some f →
    findKey (rebuildFields counts nk fs) = some { f with values := nk } := by
  intro fs
  induction fs with
  | nil => intro f h; simp [findKey] at h
  | cons g rest ih =>
    intro f h
    by_cases hg : g.interval.isSome
    · simp only [findKey, hg, if_true] at h
      rw [Option.some_inj] at h
      subst h
      simp [rebuildFields, hg, findKey]
    · simp only [findKey, hg, if_false, Bool.false_eq_true] at h
      simp only [rebuildFields, hg, Bool.false_eq_true, if_false, findKey]
      exact ih h

theorem rebuildFields_self {counts : List ℕ} (hz : ∀ c ∈ counts, c = 0) :
    ∀ {fs : List Field} {f : Field}, findKey fs = some f →
    rebuildFields counts f.values fs = fs := by
  intro fs
  induction fs with
  | nil => intro f _; rfl
  | cons g rest ih =>
    intro f h
    by_cases hg : g.interval.isSome
    · simp only [findKey, hg, if_true] at h
      rw [Option.some_inj] at h
      subst h
      simp [rebuildFields, hg, field_expand_self hz, List.map_id]
    · simp only [findKey, hg, if_false, Bool.false_eq_true] at h
      simp only [rebuildFields, hg, Bool.false_eq_true, if_false]
      rw [field_expand_self hz, ih h]

theorem rebuildFields_forall₂ {R : Field → Field → Prop}
    {counts : List ℕ} {nk : List (Option Value)} :
    ∀ {fs : List Field} {f : Field}, findKey fs = some f →
    (∀ g ∈ fs, R g { g with values := expandData counts g.values }) →
    R f { f with values := nk } →
    List.Forall₂ R fs (rebuildFields counts nk fs) := by
  intro fs
  induction fs with
  | nil => intro f h _ _; simp [findKey] at h
  | cons g rest ih =>
    intro f h hdata hkey
    by_cases hg : g.interval.isSome
    · simp only [findKey, hg, if_true] at h
      rw [Option.some_inj] at h
      subst h
      simp only [rebuildFields, hg, if_true]
      refine List.Forall₂.cons hkey ?_
      rw [List.forall₂_map_right_iff]
      exact List.forall₂_same.mpr (fun x hx => hdata x (List.mem_cons_of_mem _ hx))
    · simp only [findKey, hg, if_false, Bool.false_eq_true] at h
      simp only [rebuildFields, hg, Bool.false_eq_true, if_false]
      exact List.Forall₂.cons (hdata g (by simp))
        (ih h (fun x hx => hdata x (List.mem_cons_of_mem _ hx)) hkey)

theorem stepCount_add_mul {q : ℚ} (h0 : 0 < q) (c : ℚ) :
    stepCount q c (c + q) = 1 := by
  unfold stepCount
  rw [add_sub_cancel_left, div_self (ne_of_gt h0)]
  exact round_one

theorem cons_synthKeys_eq_map (q a : ℚ) (k : ℕ) :
    a :: synthKeys q a k = (List.range (k + 1)).map (fun j : ℕ => a + (j : ℚ) * q) := by
  rw [List.range_succ_eq_map, List.map_cons, List.map_map]
  congr 1
  · simp
  · unfold synthKeys
    apply List.map_congr_left
    intro j _
    simp only [Function.comp_apply, Nat.succ_eq_add_one]
    push_cast
    ring

theorem cons_synthKeys_getLast (q a : ℚ) (k : ℕ) :
    (a :: synthKeys q a k).getLast? = some (a + (k : ℚ) * q) := by
  rw [cons_synthKeys_eq_map, List.range_succ, List.map_append]
  simp

theorem chain_cons_synthKeys {q : ℚ} (h0 : 0 < q) (a : ℚ) (k : ℕ) :
    List.Chain' (tight q) (a :: synthKeys q a k) := by
  rw [cons_synthKeys_eq_map, List.chain'_map]
  rw [show k + 1 = Nat.succ k from rfl, List.chain'_range_succ]
  intro m _
  constructor
  · have : (0 : ℚ) < q := h0
    push_cast
    nlinarith
  · have : a + (m : ℚ) * q + q = a + ((Nat.succ m : ℕ) : ℚ) * q := by push_cast; ring
    have h1 := stepCount_add_mul h0 (a + (m : ℚ) * q)
    rw [this] at h1
    omega

theorem stepCount_sub_int {q : ℚ} (h0 : q ≠ 0) (a b : ℚ) (m : ℤ) :
    stepCount q (a + (m : ℚ) * q) b = stepCount q a b - m := by
  unfold stepCount
  have : (b - (a + (m : ℚ) * q)) / q = (b - a) / q - (m : ℚ) := by
    field_simp
    ring
  rw [this, round_sub_int]

theorem stepCount_last_le {q a b : ℚ} (h0 : 0 < q) (h2 : 2 ≤ stepCount q a b) :
    a + (((stepCount q a b - 1).toNat : ℚ)) * q ≤ b := by
  have hcast : (((stepCount q a b - 1).toNat : ℤ) : ℚ) = ((stepCount q a b : ℚ) - 1) := by
    rw [Int.toNat_of_nonneg (by omega)]
    push_cast
    ring
  rw [show (((stepCount q a b - 1).toNat : ℕ) : ℚ) = (((stepCount q a b - 1).toNat : ℤ) : ℚ) by push_cast; rfl]
  rw [hcast]
  have hb := round_le_add_half ((b - a) / q)
  unfold stepCount at *
  have hq : q ≠ 0 := ne_of_gt h0
  have h3 : ((round ((b - a) / q) : ℚ) - 1) ≤ (b - a) / q - 1 / 2 := by linarith
  have h4 : ((round ((b - a) / q) : ℚ) - 1) * q ≤ ((b - a) / q) * q := by
    apply mul_le_mul_of_nonneg_right _ (le_of_lt h0)
    linarith
  rw [div_mul_cancel₀ _ hq] at h4
  linarith

theorem stepCount_last_eq {q a b : ℚ} (h0 : 0 < q) (h2 : 2 ≤ stepCount q a b) :
    stepCount q (a + (((stepCount q a b - 1).toNat : ℕ) : ℚ) * q) b = 1 := by
  have hcast : (((stepCount q a b - 1).toNat : ℕ) : ℚ) = (((stepCount q a b - 1 : ℤ)) : ℚ) := by
    rw [show (((stepCount q a b - 1).toNat : ℕ) : ℚ) = (((stepCount q a b - 1).toNat : ℤ) : ℚ) by push_cast; rfl]
    rw [Int.toNat_of_nonneg (by omega)]
  rw [hcast, stepCount_sub_int (ne_of_gt h0)]
  omega

theorem expandKeys_head {q b : ℚ} : ∀ rs : List ℚ,
    (expandKeys q (b :: rs)).head? = some b := by
  intro rs
  cases rs with
  | nil => rfl
  | cons c rs' => rfl

theorem chain_tight_expandKeys {q : ℚ} (h0 : 0 < q) : ∀ {ks : List ℚ},
    List.Chain' (· ≤ ·) ks → List.Chain' (tight q) (expandKeys q ks) := by
  intro ks
  induction ks with
  | nil => intro _; simp [expandKeys]
  | cons a rest ih =>
    intro h
    cases rest with
    | nil => simp [expandKeys]
    | cons b rs =>
      rw [List.chain'_cons] at h
      obtain ⟨hab, htail⟩ := h
      have ihc := ih htail
      show List.Chain' (tight q) (a :: (synthKeys q a (stepCount q a b - 1).toNat ++ expandKeys q (b :: rs)))
      rcases Nat.eq_zero_or_pos (stepCount q a b - 1).toNat with hk | hk
      · rw [hk]
        show List.Chain' (tight q) (a :: ([] ++ expandKeys q (b :: rs)))
        rw [List.nil_append, List.chain'_cons']
        refine ⟨?_, ihc⟩
        intro y hy
        rw [expandKeys_head rs] at hy
        simp only [Option.mem_def, Option.some_inj] at hy
        subst hy
        exact ⟨hab, by omega⟩
      · have h2 : 2 ≤ stepCount q a b := by omega
        rw [← List.cons_append]
        rw [List.chain'_append]
        refine ⟨chain_cons_synthKeys h0 a _, ihc, ?_⟩
        intro x hx y hy
        rw [cons_synthKeys_getLast] at hx
        rw [expandKeys_head rs] at hy
        simp only [Option.mem_def, Option.some_inj] at hx hy
        subst hx
        subst hy
        exact ⟨stepCount_last_le h0 h2, le_of_eq (stepCount_last_eq h0 h2)⟩

theorem fillGaps_proceed {t : DataFrame} {f : Field} {q : ℚ} {keys : List ℚ}
    (hfind : findKey t.fields = some f) (hq : f.interval = some q)
    (h0 : ¬ q ≤ 0) (hk : f.ftype = FieldType.time ∨ f.ftype = FieldType.number)
    (he : extractNums f.values = some keys) (hl : ¬ keys.length < 2)
    (hnd : isNondecreasing keys = true) :
    fillGaps t = { t with
      fields := rebuildFields (gapCounts q keys)
                  ((expandKeys q keys).map (fun k => some (Value.num k))) t.fields } := by
  unfold fillGaps
  rw [hfind]
  dsimp only
  rw [hq]
  dsimp only
  rw [if_neg h0, if_pos hk, he]
  dsimp only
  rw [if_neg hl, if_pos hnd]

theorem fillGaps_noop_noKey {t : DataFrame} (hfind : findKey t.fields = none) :
    fillGaps t = t := by
  unfold fillGaps
  rw [hfind]

theorem fillGaps_noop_nonpos {t : DataFrame} {f : Field} {q : ℚ}
    (hfind : findKey t.fields = some f) (hq : f.interval = some q)
    (h0 : q ≤ 0) : fillGaps t = t := by
  unfold fillGaps
  rw [hfind]
  dsimp only
  rw [hq]
  dsimp only
  rw [if_pos h0]

theorem fillGaps_noop_kind {t : DataFrame} {f : Field}
    (hfind : findKey t.fields = some f)
    (hk : f.ftype ≠ FieldType.time ∧ f.ftype ≠ FieldType.number) :
    fillGaps t = t := by
  unfold fillGaps
  rw [hfind]
  dsimp only
  cases hq : f.interval with
  | none => rfl
  | some q =>
    dsimp only
    by_cases h0 : q ≤ 0
    · rw [if_pos h0]
    · rw [if_neg h0, if_neg (by tauto)]

theorem fillGaps_noop_badvalues {t : DataFrame} {f : Field}
    (hfind : findKey t.fields = some f)
    (he : extractNums f.values = none) : fillGaps t = t := by
  unfold fillGaps
  rw [hfind]
  dsimp only
  cases hq : f.interval with
  | none => rfl
  | some q =>
    dsimp only
    by_cases h0 : q ≤ 0
    · rw [if_pos h0]
    · rw [if_neg h0]
      by_cases hk : f.ftype = FieldType.time ∨ f.ftype = FieldType.number
      · rw [if_pos hk, he]
      · rw [if_neg hk]

theorem fillGaps_noop_short {t : DataFrame} {f : Field}
    (hfind : findKey t.fields = some f)
    (hs : f.values.length < 2) : fillGaps t = t := by
  unfold fillGaps
  rw [hfind]
  dsimp only
  cases hq : f.interval with
  | none => rfl
  | some q =>
    dsimp only
    by_cases h0 : q ≤ 0
    · rw [if_pos h0]
    · rw [if_neg h0]
      by_cases hk : f.ftype = FieldType.time ∨ f.ftype = FieldType.number
      · rw [if_pos hk]
        cases he : extractNums f.values with
        | none => rfl
        | some keys =>
          dsimp only
          have : keys.length < 2 := by rw [← extractNums_length he]; exact hs
          rw [if_pos this]
      · rw [if_neg hk]

theorem fillGaps_noop_unordered {t : DataFrame} {f : Field} {keys : List ℚ}
    (hfind : findKey t.fields = some f)
    (he : extractNums f.values = some keys)
    (hnd : ¬ isNondecreasing keys = true) : fillGaps t = t := by
  unfold fillGaps
  rw [hfind]
  dsimp only
  cases hq : f.interval with
  | none => rfl
  | some q =>
    dsimp only
    by_cases h0 : q ≤ 0
    · rw [if_pos h0]
    · rw [if_neg h0]
      by_cases hk : f.ftype = FieldType.time ∨ f.ftype = FieldType.number
      · rw [if_pos hk, he]
        dsimp only
        by_cases hl : keys.length < 2
        · rw [if_pos hl]
        · rw [if_neg hl, if_neg hnd]
      · rw [if_neg hk]

theorem fillGaps_noop_of_nogap {t : DataFrame} {f : Field} {q : ℚ} {keys : List ℚ}
    (hfind : findKey t.fields = some f) (hq : f.interval = some q)
    (he : extractNums f.values = some keys)
    (hsteps : List.Chain' (fun a b => stepCount q a b ≤ 1) keys)
    (hord : List.Chain' (· ≤ ·) keys) :
    fillGaps t = t := by
  by_cases h0 : q ≤ 0
  · exact fillGaps_noop_nonpos hfind hq h0
  · by_cases hk : f.ftype = FieldType.time ∨ f.ftype = FieldType.number
    · by_cases hl : keys.length < 2
      · exact fillGaps_noop_short hfind (by rw [extractNums_length he]; exact hl)
      · have hnd := (isNondecreasing_iff_chain keys).mpr hord
        rw [fillGaps_proceed hfind hq h0 hk he hl hnd]
        have hz := gapCounts_of_nogap hsteps
        rw [expandKeys_of_nogap hsteps]
        rw [← extractNums_eq_map he]
        rw [rebuildFields_self hz hfind]
    · exact fillGaps_noop_kind hfind (by tauto)

theorem fillGaps_cases (t : DataFrame) :
    fillGaps t = t ∨
    ∃ f q keys, findKey t.fields = some f ∧ f.interval = some q ∧ ¬ q ≤ 0 ∧
      (f.ftype = FieldType.time ∨ f.ftype = FieldType.number) ∧
      extractNums f.values = some keys ∧ ¬ keys.length < 2 ∧
      isNondecreasing keys = true ∧
      fillGaps t = { t with
        fields := rebuildFields (gapCounts q keys)
                    ((expandKeys q keys).map (fun k => some (Value.num k))) t.fields } := by
  cases hfind : findKey t.fields with
  | none => exact Or.inl (fillGaps_noop_noKey hfind)
  | some f =>
    cases hq : f.interval with
    | none =>
      have hi := findKey_interval hfind
      rw [hq] at hi
      simp at hi
    | some q =>
      by_cases h0 : q ≤ 0
      · exact Or.inl (fillGaps_noop_nonpos hfind hq h0)
      · by_cases hk : f.ftype = FieldType.time ∨ f.ftype = FieldType.number
        · cases he : extractNums f.values with
          | none => exact Or.inl (fillGaps_noop_badvalues hfind he)
          | some keys =>
            by_cases hl : keys.length < 2
            · exact Or.inl (fillGaps_noop_short hfind
                (by rw [extractNums_length he]; exact hl))
            · by_cases hnd : isNondecreasing keys = true
              · exact Or.inr ⟨f, q, keys, rfl, hq, h0, hk, he, hl, hnd,
                  fillGaps_proceed hfind hq h0 hk he hl hnd⟩
              · exact Or.inl (fillGaps_noop_unordered hfind he hnd)
        · exact Or.inl (fillGaps_noop_kind hfind (by tauto))

theorem expandKeys_flatMap {q : ℚ} : ∀ ks : List ℚ,
    expandKeys q ks =
      (List.range (ks.length - 1)).flatMap (fun i =>
        ks.getD i 0 :: synthKeys q (ks.getD i 0)
          (stepCount q (ks.getD i 0) (ks.getD (i + 1) 0) - 1).toNat)
      ++ ks.drop (ks.length - 1) := by
  intro ks
  induction ks with
  | nil => simp [expandKeys]
  | cons a rest ih =>
    cases rest with
    | nil => simp [expandKeys]
    | cons b rs =>
      show a :: (synthKeys q a (stepCount q a b - 1).toNat ++ expandKeys q (b :: rs)) = _
      rw [ih]
      have hlen : (a :: b :: rs).length - 1 = ((b :: rs).length - 1) + 1 := by
        simp
      rw [hlen, List.range_succ_eq_map, List.flatMap_cons, List.flatMap_map]
      simp only [List.getD_cons_zero, List.getD_cons_succ, List.drop_succ_cons]
      simp [List.getD_cons_succ, List.cons_append, List.append_assoc]

theorem expandData_flatMap : ∀ (counts : List ℕ) (vs : List (Option Value)),
    counts.length < vs.length →
    expandData counts vs =
      (List.range counts.length).flatMap (fun i =>
        vs.getD i none :: List.replicate (counts.getD i 0) none)
      ++ vs.drop counts.length := by
  intro counts
  induction counts with
  | nil => intro vs _; cases vs <;> simp [expandData]
  | cons c cs ih =>
    intro vs h
    cases vs with
    | nil => simp at h
    | cons v vs' =>
      simp only [List.length_cons, Nat.add_lt_add_iff_right] at h
      show v :: (List.replicate c none ++ expandData cs vs') = _
      rw [ih vs' h]
      rw [List.length_cons, List.range_succ_eq_map, List.flatMap_cons, List.flatMap_map]
      simp only [List.getD_cons_zero, List.getD_cons_succ, List.drop_succ_cons]
      simp [List.cons_append, List.append_assoc]

theorem step_1_1_3 : stepCount 1 1 3 = 2 := by
  unfold stepCount
  rw [round_eq]
  norm_num [Int.floor_eq_iff]

theorem step_1_3_10 : stepCount 1 3 10 = 7 := by
  unfold stepCount
  rw [round_eq]
  norm_num [Int.floor_eq_iff]

theorem step_2_1_4 : stepCount 2 1 4 = 2 := by
  unfold stepCount
  rw [round_eq]
  norm_num [Int.floor_eq_iff]

theorem step_2_4_8 : stepCount 2 4 8 = 2 := by
  unfold stepCount
  rw [round_eq]
  norm_num [Int.floor_eq_iff]

theorem step_2_2_6 : stepCount 2 2 6 = 2 := by
  unfold stepCount
  rw [round_eq]
  norm_num [Int.floor_eq_iff]

theorem step_2_6_10 : stepCount 2 6 10 = 2 := by
  unfold stepCount
  rw [round_eq]
  norm_num [Int.floor_eq_iff]

theorem int_toNat_six : Int.toNat 6 = 6 := by decide

/-- Claim C1: for the input table with time-kind key column values 1, 3, 10
and configured interval 1, fillGaps returns the table whose key column is
1,…,10 and whose co-located columns keep their original values at the
original timestamps with explicit nulls at every synthetic row. -/
theorem fillGaps_time_key_scenario : fillGaps dfTimeKey = dfTimeKeyFilled := by
  norm_num [fillGaps, dfTimeKey, dfTimeKeyFilled, timeKeyField, findKey,
    extractNums, isNondecreasing, gapCounts, expandKeys, synthKeys, expandData,
    rebuildFields, step_1_1_3, step_1_3_10, Int.toNat_ofNat, int_toNat_six,
    List.range_succ, List.replicate_succ]

/-- Claim C2: the step count between consecutive key values is
round ((key (i+1) - key i) / interval) without requiring exact divisibility:
for key values 1, 4, 8 with interval 2 the gaps round to 2 steps each, so
exactly one synthetic key (3, respectively 6) is inserted per gap, giving
key column 1, 3, 4, 6, 8 and numeric column 0, null, 1, null, 2. -/
theorem fillGaps_rounded_step_scenario :
    stepCount 2 1 4 = 2 ∧ stepCount 2 4 8 = 2 ∧
    fillGaps dfAligned = dfAlignedFilled := by
  refine ⟨step_2_1_4, step_2_4_8, ?_⟩
  norm_num [fillGaps, dfAligned, dfAlignedFilled, findKey, extractNums,
    isNondecreasing, gapCounts, expandKeys, synthKeys, expandData,
    rebuildFields, step_2_1_4, step_2_4_8, Int.toNat_ofNat,
    List.range_succ, List.replicate_succ]

/-- Claim C3: every disqualifying condition — no column carrying a sampling
interval, a non-positive interval value, an interval-bearing column that is
not of numeric or time kind, or a row count below two — makes fillGaps
return the input unchanged; being a total function, it never raises an
error to its caller. -/
theorem fillGaps_noop_of_disqualified (t : DataFrame)
    (h : findKey t.fields = none ∨
      ∃ f, findKey t.fields = some f ∧
        ((∃ q, f.interval = some q ∧ q ≤ 0) ∨
         (f.ftype ≠ FieldType.time ∧ f.ftype ≠ FieldType.number) ∨
         f.values.length < 2)) :
    fillGaps t = t := by
  rcases h with h | ⟨f, hfind, h⟩
  · exact fillGaps_noop_noKey h
  · rcases h with ⟨q, hq, h0⟩ | hk | hs
    · exact fillGaps_noop_nonpos hfind hq h0
    · exact fillGaps_noop_kind hfind hk
    · exact fillGaps_noop_short hfind hs

theorem fillGaps_noop_of_disqualified_witness :
    (stringKindField.ftype ≠ FieldType.time ∧
      stringKindField.ftype ≠ FieldType.number) ∧
    fillGaps dfStringKind = dfStringKind :=
  ⟨⟨by decide, by decide⟩,
    fillGaps_noop_of_disqualified dfStringKind
      (Or.inr ⟨stringKindField, rfl, Or.inr (Or.inl ⟨by decide, by decide⟩)⟩)⟩

/-- Claim C4: a single inversion anywhere in the key column of a table with
a configured interval disables filling for the whole table: fillGaps
returns the input unchanged, even across pairs that are in order. -/
theorem fillGaps_noop_of_out_of_order (t : DataFrame) (f : Field)
    (keys : List ℚ) (i : ℕ)
    (hfind : findKey t.fields = some f)
    (he : extractNums f.values = some keys)
    (hi : i + 1 < keys.length)
    (hinv : keys.getD (i + 1) 0 < keys.getD i 0) :
    fillGaps t = t := by
  refine fillGaps_noop_unordered hfind he (fun hnd => ?_)
  rw [isNondecreasing_iff_chain, List.chain'_iff_get] at hnd
  have h1 := hnd i (by omega)
  rw [List.getD_eq_getElem _ _ (by omega : i < keys.length)] at hinv
  rw [List.getD_eq_getElem _ _ hi] at hinv
  have h0 : keys.get ⟨i, by omega⟩ = keys[i] := rfl
  have h2 : keys.get ⟨i + 1, by omega⟩ = keys[i + 1] := rfl
  rw [h0, h2] at h1
  exact absurd h1 (not_le.mpr hinv)

theorem fillGaps_noop_of_out_of_order_witness :
    (([3, 1] : List ℚ).getD 1 0 < ([3, 1] : List ℚ).getD 0 0) ∧
    fillGaps dfOutOfOrder = dfOutOfOrder :=
  ⟨by decide,
    fillGaps_noop_of_out_of_order dfOutOfOrder outOfOrderField [3, 1] 0
      rfl rfl (by decide) (by decide)⟩

/-- Claim C5: for every table whose columns all have the same length,
fillGaps emits rows in traversal order — each original column is an ordered
sublist of its output column, so no original row is reordered or dropped —
and every output column has the same length, the original row count plus
the number of inserted synthetic rows. -/
theorem fillGaps_preserves_rows_and_lengths (t : DataFrame) (n : ℕ)
    (hwf : ∀ g ∈ t.fields, g.values.length = n) :
    ∃ m, List.Forall₂
      (fun g g2 => g.values.Sublist g2.values ∧ g2.values.length = n + m)
      t.fields (fillGaps t).fields := by
  rcases fillGaps_cases t with h | ⟨f, q, keys, hfind, hq, h0, hk, he, hl, hnd, hpr⟩
  · refine ⟨0, ?_⟩
    rw [h]
    exact List.forall₂_same.mpr
      (fun g hg => ⟨List.Sublist.refl _, by rw [hwf g hg, Nat.add_zero]⟩)
  · refine ⟨(gapCounts q keys).sum, ?_⟩
    have hn : f.values.length = n := hwf f (findKey_mem hfind)
    have hkn : keys.length = n := by rw [← extractNums_length he, hn]
    have hcl : (gapCounts q keys).length = n - 1 := by
      rw [gapCounts_length, hkn]
    have hn2 : 2 ≤ n := by omega
    rw [hpr]
    refine rebuildFields_forall₂ hfind ?_ ?_
    · intro g hg
      refine ⟨sublist_expandData _ _, ?_⟩
      rw [expandData_length _ _ (by rw [hcl, hwf g hg]; omega), hwf g hg]
    · constructor
      · rw [extractNums_eq_map he]
        exact (sublist_expandKeys keys).map _
      · show ((expandKeys q keys).map (fun k => some (Value.num k))).length = n + _
        rw [List.length_map, expandKeys_length, hkn]

theorem fillGaps_preserves_rows_and_lengths_witness :
    (∀ g ∈ dfTimeKey.fields, g.values.length = 3) ∧
    ∃ m, List.Forall₂
      (fun g g2 => g.values.Sublist g2.values ∧ g2.values.length = 3 + m)
      dfTimeKey.fields (fillGaps dfTimeKey).fields :=
  ⟨by simp [dfTimeKey, timeKeyField],
    fillGaps_preserves_rows_and_lengths dfTimeKey 3
      (by simp [dfTimeKey, timeKeyField])⟩

/-- Claim C6: when the filling branch applies and a gap with more than one
step lies between key i and key (i+1), fillGaps rebuilds the frame from the
expanded key column and null-padded data columns; the filled key column
never contains a null and decomposes gap by gap into the original key value
followed by the synthetic values key i + interval, key i + 2·interval, …,
computed from the left endpoint of the pair (so drift resets at each
original sample); the gap at i receives exactly steps − 1 synthetic keys;
and every non-key column receives exactly one explicit null per synthetic
row of each gap. -/
theorem fillGaps_gap_insertion (t : DataFrame) (f : Field) (q : ℚ)
    (keys : List ℚ) (i : ℕ)
    (hfind : findKey t.fields = some f) (hq : f.interval = some q)
    (h0 : ¬ q ≤ 0) (hk : f.ftype = FieldType.time ∨ f.ftype = FieldType.number)
    (he : extractNums f.values = some keys) (hl : ¬ keys.length < 2)
    (hnd : isNondecreasing keys = true)
    (hi : i + 1 < keys.length)
    (hst : 1 < stepCount q (keys.getD i 0) (keys.getD (i + 1) 0)) :
    fillGaps t = { t with
      fields := rebuildFields (gapCounts q keys)
                  ((expandKeys q keys).map (fun k => some (Value.num k)))
                  t.fields } ∧
    (∀ v ∈ (expandKeys q keys).map (fun k => some (Value.num k)), v ≠ none) ∧
    expandKeys q keys =
      (List.range (keys.length - 1)).flatMap (fun j =>
        keys.getD j 0 :: synthKeys q (keys.getD j 0)
          (stepCount q (keys.getD j 0) (keys.getD (j + 1) 0) - 1).toNat)
      ++ keys.drop (keys.length - 1) ∧
    ((synthKeys q (keys.getD i 0)
        (stepCount q (keys.getD i 0) (keys.getD (i + 1) 0) - 1).toNat).length : ℤ)
      = stepCount q (keys.getD i 0) (keys.getD (i + 1) 0) - 1 ∧
    ∀ vs : List (Option Value), (gapCounts q keys).length < vs.length →
      expandData (gapCounts q keys) vs =
        (List.range (gapCounts q keys).length).flatMap (fun j =>
          vs.getD j none :: List.replicate ((gapCounts q keys).getD j 0) none)
        ++ vs.drop (gapCounts q keys).length := by
  refine ⟨fillGaps_proceed hfind hq h0 hk he hl hnd, ?_, expandKeys_flatMap keys,
    ?_, fun vs hvs => expandData_flatMap _ vs hvs⟩
  · intro v hv
    rw [List.mem_map] at hv
    obtain ⟨k, _, rfl⟩ := hv
    exact Option.some_ne_none _
  · rw [synthKeys_length]
    omega

theorem fillGaps_gap_insertion_witness :
    (1 < stepCount 1 (([1, 3, 10] : List ℚ).getD 0 0)
        (([1, 3, 10] : List ℚ).getD 1 0)) ∧
    fillGaps dfTimeKey = { dfTimeKey with
      fields := rebuildFields (gapCounts 1 [1, 3, 10])
                  ((expandKeys 1 [1, 3, 10]).map (fun k => some (Value.num k)))
                  dfTimeKey.fields } :=
  have hst : 1 < stepCount 1 (([1, 3, 10] : List ℚ).getD 0 0)
      (([1, 3, 10] : List ℚ).getD 1 0) :=
    lt_of_lt_of_eq (by decide : (1 : ℤ) < 2) step_1_1_3.symm
  ⟨hst,
    (fillGaps_gap_insertion dfTimeKey timeKeyField 1 [1, 3, 10] 0
      rfl rfl (by decide) (Or.inl rfl) rfl (by decide) (by decide)
      (by decide) hst).1⟩

/-- Claim C7: fillGaps is idempotent — after one pass no further gaps
exist, so a second application inserts no rows and changes nothing. -/
theorem fillGaps_idempotent (t : DataFrame) :
    fillGaps (fillGaps t) = fillGaps t := by
  cases hfind : findKey t.fields with
  | none =>
    have h := fillGaps_noop_noKey hfind
    rw [h, h]
  | some f =>
    cases hq : f.interval with
    | none =>
      have hi := findKey_interval hfind
      rw [hq] at hi
      simp at hi
    | some q =>
      by_cases h0 : q ≤ 0
      · have h := fillGaps_noop_nonpos hfind hq h0
        rw [h, h]
      · by_cases hk : f.ftype = FieldType.time ∨ f.ftype = FieldType.number
        · cases he : extractNums f.values with
          | none =>
            have h := fillGaps_noop_badvalues hfind he
            rw [h, h]
          | some keys =>
            by_cases hl : keys.length < 2
            · have h := fillGaps_noop_short hfind
                (by rw [extractNums_length he]; exact hl)
              rw [h, h]
            · by_cases hnd : isNondecreasing keys = true
              · have h0q : 0 < q := lt_of_not_le h0
                have hord : List.Chain' (· ≤ ·) keys :=
                  (isNondecreasing_iff_chain keys).mp hnd
                have htight := chain_tight_expandKeys h0q hord
                have hord2 : List.Chain' (· ≤ ·) (expandKeys q keys) :=
                  htight.imp (fun _ _ hab => hab.1)
                have hsteps2 : List.Chain' (fun a b => stepCount q a b ≤ 1)
                    (expandKeys q keys) := htight.imp (fun _ _ hab => hab.2)
                rw [fillGaps_proceed hfind hq h0 hk he hl hnd]
                exact fillGaps_noop_of_nogap
                  (findKey_rebuild hfind) hq (extractNums_map _) hsteps2 hord2
              · have h := fillGaps_noop_unordered hfind he hnd
                rw [h, h]
        · have h := fillGaps_noop_kind hfind (by tauto)
          rw [h, h]

/-- Claim C8: a table with a valid strictly positive interval whose key
values are strictly increasing and evenly spaced at exactly that interval
is returned unchanged — no synthetic rows are inserted. -/
theorem fillGaps_noop_of_evenly_spaced (t : DataFrame) (f : Field) (q : ℚ)
    (keys : List ℚ)
    (hfind : findKey t.fields = some f) (hq : f.interval = some q) (h0 : 0 < q)
    (he : extractNums f.values = some keys)
    (hsp : List.Chain' (fun a b => b = a + q) keys) :
    fillGaps t = t := by
  refine fillGaps_noop_of_nogap hfind hq he ?_ ?_
  · refine hsp.imp (fun a b hab => ?_)
    rw [hab, stepCount_add_mul h0]
  · refine hsp.imp (fun a b hab => ?_)
    rw [hab]
    linarith

theorem fillGaps_noop_of_evenly_spaced_witness :
    (0 : ℚ) < 1 ∧ fillGaps dfEvenlySpaced = dfEvenlySpaced :=
  ⟨by decide,
    fillGaps_noop_of_evenly_spaced dfEvenlySpaced evenlySpacedField 1 [0, 1, 2]
      rfl rfl (by decide) rfl
      (List.chain'_cons.mpr ⟨(zero_add 1).symm,
        List.chain'_cons.mpr ⟨one_add_one_eq_two.symm,
          List.chain'_singleton 2⟩⟩)⟩

/-- Claim C9: when the sampling interval is configured on a numeric column
that is not the time column, that column is the key: it receives the
synthetic values, while the time column is treated like any other data
column and receives explicit nulls — for time 1, 3, 10 and numeric key
2, 6, 10 with interval 2 the output is time 1, null, 3, null, 10 and
numeric 2, 4, 6, 8, 10. -/
theorem fillGaps_number_key_scenario : fillGaps dfNumberKey = dfNumberKeyFilled := by
  norm_num [fillGaps, dfNumberKey, dfNumberKeyFilled, findKey, extractNums,
    isNondecreasing, gapCounts, expandKeys, synthKeys, expandData,
    rebuildFields, step_2_2_6, step_2_6_10, Int.toNat_ofNat,
    List.range_succ, List.replicate_succ]

/-- Claim C10: fillGaps never adds, removes or reorders columns: the output
has exactly as many columns as the input, in the same order, each keeping
its name, kind and interval configuration; only the value sequences
differ. -/
theorem fillGaps_preserves_columns (t : DataFrame) :
    t.fields.length = (fillGaps t).fields.length ∧
    List.Forall₂
      (fun g g2 => g2.name = g.name ∧ g2.ftype = g.ftype ∧
        g2.interval = g.interval)
      t.fields (fillGaps t).fields := by
  have hf2 : List.Forall₂
      (fun g g2 => g2.name = g.name ∧ g2.ftype = g.ftype ∧
        g2.interval = g.interval)
      t.fields (fillGaps t).fields := by
    rcases fillGaps_cases t with h | ⟨f, q, keys, hfind, _, _, _, _, _, _, hpr⟩
    · rw [h]
      exact List.forall₂_same.mpr (fun g _ => ⟨rfl, rfl, rfl⟩)
    · rw [hpr]
      exact rebuildFields_forall₂ hfind (fun g _ => ⟨rfl, rfl, rfl⟩) ⟨rfl, rfl, rfl⟩
  exact ⟨hf2.length_eq, hf2⟩

end Grafana

